import Mathlib

/-!
Verification of the compliance-report generation pipeline of `src/app.py`
(functions `extract_pdf_text`, `resolve_korean_font`, `build_pdf_bytes`, and
the extraction loop of `main`).

Python strings are modelled as `List Char`.  Python `str.strip` is modelled
for the ASCII whitespace characters (space, tab, newline, carriage return,
vertical tab, form feed), which is the relevant subset of Python's default
strip set for the texts handled here.
-/

namespace ArchAI

/-- A Python string, modelled as its sequence of characters. -/
abbrev Str := List Char

/-- The ASCII whitespace characters stripped by Python's `str.strip()`. -/
def isSpace (c : Char) : Bool :=
  c = ' ' || c = '\t' || c = '\n' || c = '\r' || c = Char.ofNat 11 || c = Char.ofNat 12

/-- Python `str.lstrip()`: drop leading whitespace. -/
def lstrip (l : Str) : Str := l.dropWhile isSpace

/-- Python `str.rstrip()`: drop trailing whitespace. -/
def rstrip (l : Str) : Str := (l.reverse.dropWhile isSpace).reverse

/-- Python `str.strip()`: drop leading and trailing whitespace. -/
def pyStrip (l : Str) : Str := lstrip (rstrip l)

/-- Python `sep.join(chunks)`. -/
def pyJoin (sep : Str) : List Str → Str
  | [] => []
  | [x] => x
  | x :: y :: rest => x ++ sep ++ pyJoin sep (y :: rest)

/-- Helper for splitting: push a character onto the first block. -/
def consHead (c : Char) : List Str → List Str
  | [] => [[c]]
  | b :: bs => (c :: b) :: bs

/-- Python `s.split("\n")`: the list of lines of `s`. -/
def splitNL : Str → List Str
  | [] => [[]]
  | c :: rest => if c = '\n' then [] :: splitNL rest else consHead c (splitNL rest)

/-- Python `s.split("\n\n")`: split on double newlines, leftmost first. -/
def splitOnDNL : Str → List Str
  | [] => [[]]
  | [c] => [[c]]
  | c :: d :: rest =>
      if c = '\n' && d = '\n' then [] :: splitOnDNL rest
      else consHead c (splitOnDNL (d :: rest))

/-- Whether a string contains two consecutive newline characters. -/
def hasDNL : Str → Bool
  | [] => false
  | [_] => false
  | c :: d :: rest => (c = '\n' && d = '\n') || hasDNL (d :: rest)

/-- Python `s.replace(c, rep)` for a single-character pattern `c`. -/
def pyReplaceChar (c : Char) (rep : Str) : Str → Str
  | [] => []
  | d :: rest => (if d = c then rep else [d]) ++ pyReplaceChar c rep rest

/-- `xml.sax.saxutils.escape` with default entities: replace `&` by `&amp;`,
then `<` by `&lt;`, then `>` by `&gt;` (CPython performs the three
replacements in this order). -/
def sax_escape (l : Str) : Str :=
  pyReplaceChar '>' "&gt;".data (pyReplaceChar '<' "&lt;".data
    (pyReplaceChar '&' "&amp;".data l))

/-- Character-wise view of `sax_escape`. -/
def escCh (c : Char) : Str :=
  if c = '&' then "&amp;".data
  else if c = '<' then "&lt;".data
  else if c = '>' then "&gt;".data
  else [c]

/-- Whether `pat` is an initial segment of the second argument. -/
def startsWith : Str → Str → Bool
  | [], _ => true
  | _ :: _, [] => false
  | c :: cs, d :: ds => if c = d then startsWith cs ds else false

/-- Every ampersand in the string begins one of the entities
`&amp;`, `&lt;`, `&gt;`, so no ampersand can open an unintended entity. -/
def ampsOk : Str → Bool
  | [] => true
  | c :: rest =>
      (if c = '&' then
        (startsWith "amp;".data rest || startsWith "lt;".data rest ||
          startsWith "gt;".data rest)
       else true) && ampsOk rest

/-- The string contains no angle-bracket characters. -/
def angleFree (l : Str) : Bool := l.all (fun c => !(c = '<') && !(c = '>'))

/-- The string cannot be interpreted as markup: no angle brackets, and each
ampersand only as part of one of the three emitted entities. -/
def markupSafe (l : Str) : Bool := angleFree l && ampsOk l

/-- Number of occurrences of the character `c`. -/
def countChar (c : Char) : Str → Nat
  | [] => 0
  | d :: rest => (if d = c then 1 else 0) + countChar c rest

/-! ## TextExtractor: `extract_pdf_text` (src/app.py lines 18-26)

A parsed page-based document is its ordered list of per-page extracted
texts; `page.extract_text() or ""` returning no text is modelled as `[]`.
-/

/-- The separator `"\n\n"` used to join per-page chunks. -/
def dnl : Str := ['\n', '\n']

/-- The chunk list built by the loop of `extract_pdf_text`: for each page,
`text = page.extract_text() or ""`; `if text: chunks.append(text.strip())`. -/
def chunksOf (pages : List Str) : List Str :=
  (pages.filter (fun p => !p.isEmpty)).map pyStrip

/-- `full_text = "\n\n".join(chunks).strip()` (src/app.py line 25). -/
def full_text (pages : List Str) : Str := pyStrip (pyJoin dnl (chunksOf pages))

/-- `extract_pdf_text` on an already-parsed page list:
`return full_text[:max_chars]` (src/app.py line 26). -/
def extractPages (pages : List Str) (max_chars : Nat) : Str :=
  (full_text pages).take max_chars

/-- The default `max_chars` of `extract_pdf_text` (src/app.py line 18). -/
def defaultMaxChars : Nat := 500000

/-- A regulation document as handed to `PdfReader`: either malformed
(`PdfReader` raises) or a parsed ordered sequence of page texts. -/
inductive PdfDoc where
  | malformed
  | ok (pages : List Str)
deriving DecidableEq

/-- The error raised by `PdfReader` on an unparsable document (the spec's
`MalformedDocument`). -/
inductive PdfError where
  | malformedDocument
deriving DecidableEq

/-- Outcome of a call to `extract_pdf_text`: the extracted text, or the
uncaught parse error propagating to the caller. -/
inductive PdfResult where
  | err (e : PdfError)
  | ok (text : Str)
deriving DecidableEq

/-- `extract_pdf_text(pdf_bytes, max_chars)` (src/app.py lines 18-26).
`PdfReader(BytesIO(pdf_bytes))` raising on a malformed document is not
caught inside the function, so it surfaces as an error result. -/
def extract_pdf_text (doc : PdfDoc) (max_chars : Nat) : PdfResult :=
  match doc with
  | .malformed => .err .malformedDocument
  | .ok pages => .ok (extractPages pages max_chars)

/-- Outcome of the `law_texts` accumulation loop in `main`. -/
inductive LawTextsResult where
  | err (e : PdfError)
  | ok (texts : List Str)
deriving DecidableEq

/-- The loop of `main` (src/app.py lines 183-187): extract each uploaded
document in order with the default character budget, keeping non-empty
texts.  The whole loop sits inside a single `try`, so the first error
aborts the batch. -/
def lawTextsLoop : List PdfDoc → LawTextsResult
  | [] => .ok []
  | d :: ds =>
      match extract_pdf_text d defaultMaxChars with
      | .err e => .err e
      | .ok t =>
          match lawTextsLoop ds with
          | .err e => .err e
          | .ok ts => .ok (if t.isEmpty then ts else t :: ts)

/-- The separator `"\n\n---\n\n"` of src/app.py line 188. -/
def sepLaw : Str := "\n\n---\n\n".data

/-- `"\n\n---\n\n".join(law_texts).strip()` (src/app.py line 188). -/
def aggregateLaw (ts : List Str) : Str := pyStrip (pyJoin sepLaw ts)

/-- `law_text` as computed by `main` (src/app.py lines 183-188), or the
propagated extraction error. -/
def mainLawText (docs : List PdfDoc) : PdfResult :=
  match lawTextsLoop docs with
  | .err e => .err e
  | .ok ts => .ok (aggregateLaw ts)

/-- The string `"---"`: a separator line of the aggregate. -/
def threeHyphens : Str := ['-', '-', '-']

/-- Number of lines of `l` equal to `---`. -/
def sepLineCount (l : Str) : Nat :=
  ((splitNL l).filter (fun b => decide (b = threeHyphens))).length

/-! ## FontResolver: `resolve_korean_font` (src/app.py lines 53-67)

The filesystem is modelled by a predicate `ex` on paths (`path.exists()`)
and the process-wide ReportLab registry by the list of registered logical
names (`pdfmetrics.getRegisteredFontNames()`). -/

/-- Result of one `resolve_korean_font` call: the returned
`(name, str(path))` pair, the registry after the call, and how many
`pdfmetrics.registerFont` calls were made. -/
structure ResolveOut where
  name : Option String
  path : Option String
  registry : List String
  newRegistrations : Nat
deriving DecidableEq

/-- The fixed candidate list of src/app.py lines 55-60, relative to
`base_dir` (the directory of the script). -/
def fontCandidates (base_dir : String) : List (String × String) :=
  [("NanumGothic", base_dir ++ "/fonts/NanumGothic.ttf"),
   ("NanumGothic", base_dir ++ "/NanumGothic.ttf"),
   ("MalgunGothic", "C:/Windows/Fonts/malgun.ttf"),
   ("MalgunGothic", "C:/Windows/Fonts/malgunbd.ttf")]

/-- The `for name, path in candidates` loop of src/app.py lines 62-67. -/
def resolveLoop (ex : String → Bool) (reg : List String) :
    List (String × String) → ResolveOut
  | [] => ⟨none, none, reg, 0⟩
  | (n, p) :: rest =>
      if ex p then
        if n ∈ reg then ⟨some n, some p, reg, 0⟩
        else ⟨some n, some p, n :: reg, 1⟩
      else resolveLoop ex reg rest

/-- `resolve_korean_font()` (src/app.py lines 53-67), with the filesystem
`ex`, current registry `reg` and `base_dir` made explicit. -/
def resolve_korean_font (ex : String → Bool) (reg : List String)
    (base_dir : String) : ResolveOut :=
  resolveLoop ex reg (fontCandidates base_dir)

/-- A filesystem on which the first and the third candidate paths exist. -/
def fsFirstAndThird (base_dir : String) : String → Bool :=
  fun p => decide (p = base_dir ++ "/fonts/NanumGothic.ttf" ∨
    p = "C:/Windows/Fonts/malgun.ttf")

/-! ## ReportBuilder: `build_pdf_bytes` (src/app.py lines 70-109)

The rendered document is modelled by its base font and the text of the
`Paragraph` flowables of the story, in order. -/

/-- The text content handed to the rendering engine. -/
structure ReportDoc where
  baseFont : String
  title : Str
  metaTime : Str
  metaFile : Str
  sectionLabel : Str
  body : Str
deriving DecidableEq

/-- `build_pdf_bytes(analysis_text, plan_filename, analyzed_at, font_name)`
(src/app.py lines 70-109).  `font_name or "Helvetica"` selects the base
font; the three free-text fields are passed through
`xml.sax.saxutils.escape`, and the body additionally has newlines replaced
by `<br/>` (lines 86, 101, 102, 106). -/
def build_pdf_bytes (analysis_text plan_filename analyzed_at : Str)
    (font_name : Option String) : ReportDoc :=
  ⟨(match font_name with
    | none => "Helvetica"
    | some s => if s = "" then "Helvetica" else s),
   "건축 법규 검토 결과".data,
   "분석 일시: ".data ++ sax_escape analyzed_at,
   "도면 파일명: ".data ++ sax_escape plan_filename,
   "AI 분석 내용:".data,
   pyReplaceChar '\n' "<br/>".data (sax_escape analysis_text)⟩

/-! ## Helper lemmas: dropWhile and strip -/

theorem dropWhile_head_false {p : Char → Bool} :
    ∀ {l c t}, List.dropWhile p l = c :: t → p c = false := by
  intro l
  induction l with
  | nil => intro c t h; simp [List.dropWhile] at h
  | cons d rest ih =>
      intro c t h
      rw [List.dropWhile_cons] at h
      cases hd : p d with
      | true => simp [hd] at h; exact ih h
      | false =>
          simp [hd] at h
          obtain ⟨rfl, -⟩ := h
          exact hd

theorem exists_dropWhile_suffix (p : Char → Bool) :
    ∀ l : Str, ∃ a, l = a ++ List.dropWhile p l := by
  intro l
  induction l with
  | nil => exact ⟨[], rfl⟩
  | cons d rest ih =>
      cases hd : p d with
      | true =>
          obtain ⟨a, ha⟩ := ih
          exact ⟨d :: a, by rw [List.dropWhile_cons_of_pos hd, List.cons_append, ← ha]⟩
      | false =>
          exact ⟨[], by rw [List.dropWhile_cons_of_neg (by simp [hd]), List.nil_append]⟩

theorem mem_of_mem_dropWhile_arch {p : Char → Bool} {l : Str} {c : Char}
    (h : c ∈ List.dropWhile p l) : c ∈ l := by
  obtain ⟨a, ha⟩ := exists_dropWhile_suffix p l
  rw [ha]
  exact List.mem_append_right a h

theorem head?_shape {x : Str} {c : Char} (h : x.head? = some c) : ∃ t, x = c :: t := by
  cases x with
  | nil => simp at h
  | cons d t =>
      simp at h
      exact ⟨t, by rw [h]⟩

theorem lstrip_eq_self_of_head {l : Str}
    (h : ∀ c, l.head? = some c → isSpace c = false) : lstrip l = l := by
  cases l with
  | nil => rfl
  | cons c t => exact List.dropWhile_cons_of_neg (by simp [h c rfl])

theorem rstrip_eq_self_of_last {l : Str}
    (h : ∀ c, l.getLast? = some c → isSpace c = false) : rstrip l = l := by
  unfold rstrip
  cases hr : l.reverse with
  | nil =>
      simp only [List.dropWhile_nil, List.reverse_nil]
      exact (List.reverse_eq_nil_iff.mp hr).symm
  | cons y r =>
      have hy : l.getLast? = some y := by rw [← List.head?_reverse, hr]; rfl
      rw [List.dropWhile_cons_of_neg (by simp [h y hy]), ← hr, List.reverse_reverse]

theorem pyStrip_eq_self {l : Str}
    (hh : ∀ c, l.head? = some c → isSpace c = false)
    (hl : ∀ c, l.getLast? = some c → isSpace c = false) : pyStrip l = l := by
  unfold pyStrip
  rw [rstrip_eq_self_of_last hl, lstrip_eq_self_of_head hh]

theorem lstrip_head {l : Str} {c : Char} {t : Str}
    (h : lstrip l = c :: t) : isSpace c = false :=
  dropWhile_head_false h

theorem rstrip_getLast {l : Str} {c : Char}
    (h : (rstrip l).getLast? = some c) : isSpace c = false := by
  unfold rstrip at h
  rw [List.getLast?_reverse] at h
  obtain ⟨t, ht⟩ := head?_shape h
  exact dropWhile_head_false ht

theorem pyStrip_head {l : Str} {c : Char} {t : Str}
    (h : pyStrip l = c :: t) : isSpace c = false := by
  unfold pyStrip at h
  exact lstrip_head h

theorem pyStrip_getLast {l : Str} {c : Char}
    (h : (pyStrip l).getLast? = some c) : isSpace c = false := by
  obtain ⟨a, ha⟩ := exists_dropWhile_suffix isSpace (rstrip l)
  apply rstrip_getLast (l := l)
  rw [ha, List.getLast?_append]
  unfold pyStrip lstrip at h
  rw [h]
  rfl

theorem pyStrip_idem (l : Str) : pyStrip (pyStrip l) = pyStrip l := by
  apply pyStrip_eq_self
  · intro c h
    obtain ⟨t, ht⟩ := head?_shape h
    exact pyStrip_head ht
  · intro c h
    exact pyStrip_getLast h

theorem all_space_pyStrip {l : Str} (h : ∀ c ∈ l, isSpace c = true) : pyStrip l = [] := by
  have hd : List.dropWhile isSpace l.reverse = [] :=
    List.dropWhile_eq_nil_iff.mpr (fun x hx => h x (List.mem_reverse.mp hx))
  unfold pyStrip rstrip
  rw [hd]
  rfl

theorem mem_rstrip {l : Str} {c : Char} (h : c ∈ rstrip l) : c ∈ l := by
  unfold rstrip at h
  rw [List.mem_reverse] at h
  exact List.mem_reverse.mp (mem_of_mem_dropWhile_arch h)

/-! ## Helper lemmas: pyJoin -/

theorem pyJoin_cons_cons (sep x y : Str) (rest : List Str) :
    pyJoin sep (x :: y :: rest) = x ++ sep ++ pyJoin sep (y :: rest) := rfl

theorem pyJoin_ne_nil {sep : Str} :
    ∀ {bs b}, (∀ x ∈ b :: bs, x ≠ []) → pyJoin sep (b :: bs) ≠ [] := by
  intro bs
  induction bs with
  | nil =>
      intro b h
      simpa [pyJoin] using h b (by simp)
  | cons y ys ih =>
      intro b h hc
      rw [pyJoin_cons_cons] at hc
      exact h b (by simp) (List.append_eq_nil.mp (List.append_eq_nil.mp hc).1).1

theorem pyJoin_head? {sep : Str} :
    ∀ (bs : List Str) (b : Str), b ≠ [] → (pyJoin sep (b :: bs)).head? = b.head? := by
  intro bs b hb
  cases bs with
  | nil => rfl
  | cons y ys =>
      rw [pyJoin_cons_cons, List.append_assoc]
      exact List.head?_append_of_ne_nil _ hb

theorem pyJoin_getLast_space {sep : Str} :
    ∀ (bs : List Str) (b : Str),
      (∀ x ∈ b :: bs, x ≠ []) →
      (∀ x ∈ b :: bs, ∀ c, x.getLast? = some c → isSpace c = false) →
      ∀ c, (pyJoin sep (b :: bs)).getLast? = some c → isSpace c = false := by
  intro bs
  induction bs with
  | nil =>
      intro b _ hsp c hc
      exact hsp b (by simp) c hc
  | cons y ys ih =>
      intro b hne hsp c hc
      rw [pyJoin_cons_cons, List.getLast?_append] at hc
      have hJ : pyJoin sep (y :: ys) ≠ [] :=
        pyJoin_ne_nil (fun z hz => hne z (List.mem_cons_of_mem _ hz))
      cases hJl : (pyJoin sep (y :: ys)).getLast? with
      | none => exact absurd (List.getLast?_eq_none_iff.mp hJl) hJ
      | some d =>
          rw [hJl] at hc
          have hdc : d = c := by simpa using hc
          subst hdc
          exact ih y (fun z hz => hne z (List.mem_cons_of_mem _ hz))
            (fun z hz => hsp z (List.mem_cons_of_mem _ hz)) d hJl

theorem mem_pyJoin_of_all_nil {sep : Str} :
    ∀ {ls : List Str}, (∀ x ∈ ls, x = []) → ∀ c ∈ pyJoin sep ls, c ∈ sep := by
  intro ls
  induction ls with
  | nil => intro _ c hc; simp [pyJoin] at hc
  | cons x ys ih =>
      intro h c hc
      cases ys with
      | nil =>
          rw [h x (by simp)] at hc
          simp [pyJoin] at hc
      | cons y zs =>
          rw [pyJoin_cons_cons, h x (by simp)] at hc
          simp only [List.nil_append, List.mem_append] at hc
          cases hc with
          | inl h1 => exact h1
          | inr h2 => exact ih (fun z hz => h z (List.mem_cons_of_mem _ hz)) c h2

/-! ## Helper lemmas: splitting -/

theorem consHead_ne_nil (c : Char) (S : List Str) : consHead c S ≠ [] := by
  cases S <;> simp [consHead]

theorem consHead_append {c : Char} {A B : List Str} (h : A ≠ []) :
    consHead c (A ++ B) = consHead c A ++ B := by
  cases A with
  | nil => exact absurd rfl h
  | cons b bs => rfl

theorem splitNL_cons_nl (rest : Str) : splitNL ('\n' :: rest) = [] :: splitNL rest := by
  simp [splitNL]

theorem splitNL_cons_ne {c : Char} (h : c ≠ '\n') (rest : Str) :
    splitNL (c :: rest) = consHead c (splitNL rest) := by
  simp [splitNL, h]

theorem splitNL_ne_nil (l : Str) : splitNL l ≠ [] := by
  cases l with
  | nil => simp [splitNL]
  | cons c rest =>
      by_cases hc : c = '\n'
      · subst hc; rw [splitNL_cons_nl]; simp
      · rw [splitNL_cons_ne hc]; exact consHead_ne_nil c _

theorem splitOnDNL_cons_nl (rest : Str) :
    splitOnDNL ('\n' :: '\n' :: rest) = [] :: splitOnDNL rest := by
  simp [splitOnDNL]

theorem splitOnDNL_cons_ne {c d : Char} (h : ¬(c = '\n' ∧ d = '\n')) (rest : Str) :
    splitOnDNL (c :: d :: rest) = consHead c (splitOnDNL (d :: rest)) := by
  simp only [splitOnDNL]
  rw [if_neg]
  simp only [Bool.and_eq_true, decide_eq_true_eq]
  exact h

theorem splitOnDNL_ne_nil (l : Str) : splitOnDNL l ≠ [] := by
  match l with
  | [] => simp [splitOnDNL]
  | [c] => simp [splitOnDNL]
  | c :: d :: rest =>
      by_cases h : c = '\n' ∧ d = '\n'
      · obtain ⟨h1, h2⟩ := h
        subst h1; subst h2
        rw [splitOnDNL_cons_nl]; simp
      · rw [splitOnDNL_cons_ne h]; exact consHead_ne_nil c _

theorem splitNL_append (x y : Str) :
    splitNL (x ++ '\n' :: y) = splitNL x ++ splitNL y := by
  induction x with
  | nil => rw [List.nil_append, splitNL_cons_nl]; rfl
  | cons c x' ih =>
      by_cases hc : c = '\n'
      · subst hc
        rw [List.cons_append, splitNL_cons_nl, ih, splitNL_cons_nl]
        rfl
      · rw [List.cons_append, splitNL_cons_ne hc, ih, splitNL_cons_ne hc,
          consHead_append (splitNL_ne_nil x')]

theorem mem_splitNL_subset : ∀ (l b : Str), b ∈ splitNL l → ∀ c ∈ b, c ∈ l := by
  intro l
  induction l with
  | nil =>
      intro b hb c hc
      simp [splitNL] at hb
      subst hb
      simp at hc
  | cons d rest ih =>
      intro b hb c hc
      by_cases hd : d = '\n'
      · subst hd
        rw [splitNL_cons_nl] at hb
        rcases List.mem_cons.mp hb with h1 | h2
        · subst h1; simp at hc
        · exact List.mem_cons_of_mem _ (ih b h2 c hc)
      · rw [splitNL_cons_ne hd] at hb
        cases hS : splitNL rest with
        | nil => exact absurd hS (splitNL_ne_nil rest)
        | cons s ss =>
            rw [hS] at hb
            simp only [consHead] at hb
            rcases List.mem_cons.mp hb with h1 | h2
            · subst h1
              rcases List.mem_cons.mp hc with h3 | h4
              · subst h3; exact List.mem_cons_self _ _
              · exact List.mem_cons_of_mem _
                  (ih s (by rw [hS]; exact List.mem_cons_self _ _) c h4)
            · exact List.mem_cons_of_mem _
                (ih b (by rw [hS]; exact List.mem_cons_of_mem _ h2) c hc)

theorem hasDNL_cons {c d : Char} {rest : Str} :
    hasDNL (c :: d :: rest) = ((c = '\n' && d = '\n') || hasDNL (d :: rest)) := rfl

theorem splitOnDNL_of_noDNL : ∀ l : Str, hasDNL l = false → splitOnDNL l = [l] := by
  intro l
  induction l with
  | nil => intro _; rfl
  | cons c rest ih =>
      intro h
      cases rest with
      | nil => rfl
      | cons d rest' =>
          rw [hasDNL_cons] at h
          rcases Bool.or_eq_false_iff.mp h with ⟨h1, h2⟩
          have hcd : ¬(c = '\n' ∧ d = '\n') := by
            intro hand
            simp [hand.1, hand.2] at h1
          rw [splitOnDNL_cons_ne hcd, ih h2]
          rfl

theorem splitOnDNL_append : ∀ (x y : Str), hasDNL x = false →
    (∀ c, x.getLast? = some c → c ≠ '\n') →
    splitOnDNL (x ++ '\n' :: '\n' :: y) = splitOnDNL x ++ splitOnDNL y := by
  intro x
  induction x with
  | nil =>
      intro y _ _
      rw [List.nil_append, splitOnDNL_cons_nl]
      rfl
  | cons c x' ih =>
      intro y hD hE
      cases x' with
      | nil =>
          have hc : c ≠ '\n' := hE c (by simp)
          rw [List.cons_append, List.nil_append,
            splitOnDNL_cons_ne (fun hand => hc hand.1), splitOnDNL_cons_nl]
          rfl
      | cons d x'' =>
          have hcd : ¬(c = '\n' ∧ d = '\n') := by
            intro hand
            rw [hasDNL_cons] at hD
            simp [hand.1, hand.2] at hD
          have hD' : hasDNL (d :: x'') = false := by
            rw [hasDNL_cons] at hD
            exact (Bool.or_eq_false_iff.mp hD).2
          have hE' : ∀ e, (d :: x'').getLast? = some e → e ≠ '\n' := by
            intro e he
            exact hE e (by rw [List.getLast?_cons_cons]; exact he)
          have ihy := ih y hD' hE'
          simp only [List.cons_append] at ihy ⊢
          rw [splitOnDNL_cons_ne hcd, ihy, splitOnDNL_cons_ne hcd,
            consHead_append (splitOnDNL_ne_nil _)]

theorem splitOnDNL_pyJoin : ∀ (bs : List Str) (b : Str),
    (∀ x ∈ b :: bs, hasDNL x = false) →
    (∀ x ∈ b :: bs, ∀ c, x.getLast? = some c → c ≠ '\n') →
    splitOnDNL (pyJoin dnl (b :: bs)) = b :: bs := by
  intro bs
  induction bs with
  | nil =>
      intro b hD _
      exact splitOnDNL_of_noDNL b (hD b (by simp))
  | cons y ys ih =>
      intro b hD hE
      rw [pyJoin_cons_cons]
      have hsh : b ++ dnl ++ pyJoin dnl (y :: ys) =
          b ++ '\n' :: '\n' :: pyJoin dnl (y :: ys) := by
        simp [dnl]
      rw [hsh, splitOnDNL_append b _ (hD b (by simp)) (hE b (by simp)),
        splitOnDNL_of_noDNL b (hD b (by simp)),
        ih y (fun z hz => hD z (List.mem_cons_of_mem _ hz))
          (fun z hz => hE z (List.mem_cons_of_mem _ hz))]
      rfl

/-! ## Helper lemmas: the extractor pipeline -/

theorem mem_chunksOf {pages : List Str} {b : Str} (h : b ∈ chunksOf pages) :
    ∃ p, p ∈ pages ∧ p ≠ [] ∧ b = pyStrip p := by
  unfold chunksOf at h
  rcases List.mem_map.mp h with ⟨p, hp, rfl⟩
  rcases List.mem_filter.mp hp with ⟨hmem, hff⟩
  refine ⟨p, hmem, ?_, rfl⟩
  simpa using hff

/-- When every non-empty page keeps a non-empty trimmed text, the final
`.strip()` of `extract_pdf_text` is a no-op on the joined chunks. -/
theorem full_text_of_nice {pages : List Str}
    (h1 : ∀ p ∈ pages, p ≠ [] → pyStrip p ≠ []) :
    full_text pages = pyJoin dnl (chunksOf pages) := by
  have hne : ∀ x ∈ chunksOf pages, x ≠ [] := by
    intro x hx
    rcases mem_chunksOf hx with ⟨p, hp, hpne, rfl⟩
    exact h1 p hp hpne
  have hhead : ∀ x ∈ chunksOf pages, ∀ c t, x = c :: t → isSpace c = false := by
    intro x hx c t hct
    rcases mem_chunksOf hx with ⟨p, hp, hpne, rfl⟩
    exact pyStrip_head hct
  have hlast : ∀ x ∈ chunksOf pages, ∀ c, x.getLast? = some c → isSpace c = false := by
    intro x hx c hc
    rcases mem_chunksOf hx with ⟨p, hp, hpne, rfl⟩
    exact pyStrip_getLast hc
  unfold full_text
  cases hq : chunksOf pages with
  | nil => rfl
  | cons b bs =>
      apply pyStrip_eq_self
      · intro c hh
        rw [pyJoin_head? bs b (hne b (by rw [hq]; simp))] at hh
        obtain ⟨t, ht⟩ := head?_shape hh
        exact hhead b (by rw [hq]; simp) c t ht
      · intro c hl
        exact pyJoin_getLast_space bs b
          (by intro x hx; exact hne x (by rw [hq]; exact hx))
          (by intro x hx; exact hlast x (by rw [hq]; exact hx)) c hl

theorem extractPages_of_nice {pages : List Str} {mc : Nat}
    (h1 : ∀ p ∈ pages, p ≠ [] → pyStrip p ≠ [])
    (h3 : (pyJoin dnl (chunksOf pages)).length ≤ mc) :
    extractPages pages mc = pyJoin dnl (chunksOf pages) := by
  unfold extractPages
  rw [full_text_of_nice h1]
  exact List.take_of_length_le h3

/-- Claim C1, as stated, is false on the code: a page whose extracted text
is non-empty but whitespace-only counts as "yielding text" (the code only
skips pages with empty text), yet its trimmed chunk is empty.  With pages
`[" ", "a"]` both pages yield non-empty text (m = 2) but the output `"a"`
is a single block; with pages `["a", " ", "b"]` the output
`"a\n\n\n\nb"` contains an empty block between two blank-line separators,
a blank-line artifact. -/
theorem C1_counterexample :
    (([[' '], ['a']] : List Str).filter (fun p => !p.isEmpty)).length = 2 ∧
    extractPages [[' '], ['a']] defaultMaxChars = ['a'] ∧
    (splitOnDNL (extractPages [[' '], ['a']] defaultMaxChars)).length ≠ 2 ∧
    splitOnDNL (extractPages [['a'], [' '], ['b']] defaultMaxChars) =
      [['a'], [], ['b']] := by
  decide

/-- Claim C1 (amended): `extract_pdf_text` keeps, in order, the trimmed
texts of the pages with non-empty text and joins them with one double
newline.  Provided no page's text is whitespace-only (each page's text is
empty or trims to something non-empty), no trimmed page text contains a
blank line, and the budget is not exceeded, the output consists of exactly
m = (number of pages with non-empty text) blocks, all non-empty and free
of leading/trailing whitespace, separated by single blank lines. -/
theorem C1_prop (pages : List Str) (mc : Nat)
    (h1 : ∀ p ∈ pages, p ≠ [] → pyStrip p ≠ [])
    (h2 : ∀ p ∈ pages, hasDNL (pyStrip p) = false)
    (h3 : (pyJoin dnl (chunksOf pages)).length ≤ mc) :
    extract_pdf_text (PdfDoc.ok pages) mc =
      PdfResult.ok (pyJoin dnl (chunksOf pages)) ∧
    (chunksOf pages).length = (pages.filter (fun p => !p.isEmpty)).length ∧
    (∀ b ∈ chunksOf pages, b ≠ [] ∧ pyStrip b = b) ∧
    (chunksOf pages ≠ [] → splitOnDNL (extractPages pages mc) = chunksOf pages) := by
  have hext : extractPages pages mc = pyJoin dnl (chunksOf pages) :=
    extractPages_of_nice h1 h3
  refine ⟨?_, ?_, ?_, ?_⟩
  · show PdfResult.ok (extractPages pages mc) = _
    rw [hext]
  · unfold chunksOf
    rw [List.length_map]
  · intro b hb
    rcases mem_chunksOf hb with ⟨p, hp, hpne, rfl⟩
    exact ⟨h1 p hp hpne, pyStrip_idem p⟩
  · intro hcne
    rw [hext]
    cases hq : chunksOf pages with
    | nil => exact absurd hq hcne
    | cons b bs =>
        apply splitOnDNL_pyJoin
        · intro x hx
          rcases mem_chunksOf (show x ∈ chunksOf pages by rw [hq]; exact hx) with
            ⟨p, hp, hpne, rfl⟩
          exact h2 p hp
        · intro x hx c hc
          rcases mem_chunksOf (show x ∈ chunksOf pages by rw [hq]; exact hx) with
            ⟨p, hp, hpne, rfl⟩
          intro hcn
          have hsp := pyStrip_getLast hc
          rw [hcn] at hsp
          exact absurd hsp (by decide)

/-- Witness for `C1_prop` at the two-page document `["a", "b"]`. -/
theorem C1_witness : splitOnDNL (extractPages [['a'], ['b']] 500000) = [['a'], ['b']] :=
  (C1_prop [['a'], ['b']] 500000 (by decide) (by decide) (by decide)).2.2.2 (by decide)

/-- Claim C3: the output of `extract_pdf_text` never exceeds `max_chars`
characters, and past the budget it is exactly the `max_chars`-character
prefix of the trimmed joined text (hard cut); the default budget is
500000. -/
theorem C3_prop (pages : List Str) (mc : Nat) :
    (extractPages pages mc).length ≤ mc ∧
    ((full_text pages).length > mc →
      (extractPages pages mc).length = mc ∧
      extractPages pages mc = (full_text pages).take mc) ∧
    extract_pdf_text (PdfDoc.ok pages) mc = PdfResult.ok (extractPages pages mc) ∧
    defaultMaxChars = 500000 := by
  refine ⟨?_, ?_, rfl, rfl⟩
  · unfold extractPages
    rw [List.length_take]
    exact min_le_left _ _
  · intro hgt
    refine ⟨?_, rfl⟩
    unfold extractPages
    rw [List.length_take]
    exact min_eq_left (le_of_lt hgt)

/-- Witness for `C3_prop`: a two-character document truncated to one
character. -/
theorem C3_witness : (extractPages [['a', 'b']] 1).length = 1 :=
  ((C3_prop [['a', 'b']] 1).2.1 (by decide)).1

/-- Claim C8: a document that parses but in which no page yields
extractable text (every page's text trims to nothing) produces the empty
string. -/
theorem C8_prop (pages : List Str) (mc : Nat)
    (h : ∀ p ∈ pages, pyStrip p = []) :
    extract_pdf_text (PdfDoc.ok pages) mc = PdfResult.ok [] := by
  show PdfResult.ok (extractPages pages mc) = _
  have hchunks : ∀ x ∈ chunksOf pages, x = [] := by
    intro x hx
    rcases mem_chunksOf hx with ⟨p, hp, _, rfl⟩
    exact h p hp
  have hws : ∀ c ∈ pyJoin dnl (chunksOf pages), isSpace c = true := by
    intro c hc
    have hm : c ∈ dnl := mem_pyJoin_of_all_nil hchunks c hc
    have hcn : c = '\n' := by simpa [dnl] using hm
    rw [hcn]
    decide
  unfold extractPages full_text
  rw [all_space_pyStrip hws, List.take_nil]

/-- Witness for `C8_prop`: one whitespace-only page and one page with
no text. -/
theorem C8_witness : extract_pdf_text (PdfDoc.ok [[' '], []]) 7 = PdfResult.ok [] :=
  C8_prop _ _ (by decide)

/-! ## Helper lemmas: error propagation in the caller loop -/

theorem lawTextsLoop_err {docs : List PdfDoc} (h : PdfDoc.malformed ∈ docs) :
    lawTextsLoop docs = LawTextsResult.err PdfError.malformedDocument := by
  induction docs with
  | nil => simp at h
  | cons d ds ih =>
      cases d with
      | malformed => rfl
      | ok pages =>
          have hds : PdfDoc.malformed ∈ ds := by
            rcases List.mem_cons.mp h with h1 | h2
            · exact PdfDoc.noConfusion h1
            · exact h2
          show (match lawTextsLoop ds with
            | .err e => LawTextsResult.err e
            | .ok ts => .ok (if (extractPages pages defaultMaxChars).isEmpty
                then ts else extractPages pages defaultMaxChars :: ts)) = _
          rw [ih hds]

/-- Claim C6, as stated, is false on the code: the caller (`main`, lines
182-197) runs the whole extraction loop inside a single `try`, so one
malformed document aborts the sibling extractions; the good siblings'
texts are not used at all (compare the same two good documents without
the bad one). -/
theorem C6_counterexample :
    mainLawText [PdfDoc.ok [['a']], PdfDoc.malformed, PdfDoc.ok [['b']]] =
      PdfResult.err PdfError.malformedDocument ∧
    mainLawText [PdfDoc.ok [['a']], PdfDoc.ok [['b']]] =
      PdfResult.ok "a\n\n---\n\nb".data := by
  decide

/-- Claim C6 (amended): a document that cannot be parsed makes
`extract_pdf_text` fail with the malformed-document error, uncaught inside
the extractor; the caller wraps the entire extraction loop in one handler,
so a batch containing any malformed document yields the propagated error
(the whole batch is aborted, rather than only the failing document being
skipped). -/
theorem C6_prop :
    (∀ mc, extract_pdf_text PdfDoc.malformed mc =
      PdfResult.err PdfError.malformedDocument) ∧
    (∀ docs : List PdfDoc, PdfDoc.malformed ∈ docs →
      mainLawText docs = PdfResult.err PdfError.malformedDocument) := by
  refine ⟨fun _ => rfl, ?_⟩
  intro docs h
  unfold mainLawText
  rw [lawTextsLoop_err h]

/-- Witness for `C6_prop` on a one-document batch. -/
theorem C6_witness :
    mainLawText [PdfDoc.malformed] = PdfResult.err PdfError.malformedDocument :=
  C6_prop.2 _ (by decide)

/-! ## Helper lemmas: the caller aggregation -/

theorem dropWhile_append_left {p : Char → Bool} :
    ∀ {a : Str} (b : Str) {c : Char} {t : Str},
      List.dropWhile p a = c :: t → List.dropWhile p (a ++ b) = c :: (t ++ b) := by
  intro a
  induction a with
  | nil => intro b c t h; simp [List.dropWhile] at h
  | cons d rest ih =>
      intro b c t h
      cases hd : p d with
      | true =>
          rw [List.dropWhile_cons_of_pos hd] at h
          rw [List.cons_append, List.dropWhile_cons_of_pos hd]
          exact ih b h
      | false =>
          rw [List.dropWhile_cons_of_neg (by simp [hd])] at h
          injection h with h1 h2
          subst h1; subst h2
          rw [List.cons_append, List.dropWhile_cons_of_neg (by simp [hd])]

theorem rstrip_append {x y : Str} (h : rstrip y ≠ []) : rstrip (x ++ y) = x ++ rstrip y := by
  unfold rstrip at h ⊢
  have h' : List.dropWhile isSpace y.reverse ≠ [] := by
    intro hc
    rw [hc] at h
    exact h rfl
  cases hdw : List.dropWhile isSpace y.reverse with
  | nil => exact absurd hdw h'
  | cons c t =>
      rw [List.reverse_append, dropWhile_append_left _ hdw]
      simp [List.reverse_cons, List.reverse_append, List.append_assoc]

theorem rstrip_ne_nil {y : Str} {c : Char} (hc : c ∈ y) (hsp : isSpace c = false) :
    rstrip y ≠ [] := by
  intro h
  unfold rstrip at h
  have hdw : List.dropWhile isSpace y.reverse = [] := by
    have hrr := congrArg List.reverse h
    rwa [List.reverse_reverse, List.reverse_nil] at hrr
  have h1 := List.dropWhile_eq_nil_iff.mp hdw c (List.mem_reverse.mpr hc)
  rw [hsp] at h1
  exact Bool.false_ne_true h1

theorem head_nonspace_of_lstrip_fix {l : Str} {c : Char} {t : Str}
    (hf : lstrip l = l) (hl : l = c :: t) : isSpace c = false := by
  subst hl
  cases hc : isSpace c with
  | false => rfl
  | true =>
      exfalso
      unfold lstrip at hf
      rw [List.dropWhile_cons_of_pos hc] at hf
      have hlen := congrArg List.length hf
      rw [List.length_cons] at hlen
      have hle := (List.dropWhile_sublist (l := t) isSpace).length_le
      omega

theorem pyStrip_sep_append {t2 : Str} (c1 : Char) (r1 : Str)
    (hsp1 : isSpace c1 = false) (hr2 : rstrip t2 ≠ []) :
    pyStrip ((c1 :: r1) ++ sepLaw ++ t2) = (c1 :: r1) ++ sepLaw ++ rstrip t2 := by
  unfold pyStrip
  rw [rstrip_append hr2]
  unfold lstrip
  simp only [List.cons_append]
  rw [List.dropWhile_cons_of_neg (by simp [hsp1])]

theorem splitNL_agg (t1 rt2 : Str) :
    splitNL (t1 ++ sepLaw ++ rt2) =
      splitNL t1 ++ ([] :: threeHyphens :: ([] :: splitNL rt2)) := by
  have hdecomp : t1 ++ sepLaw ++ rt2 =
      t1 ++ '\n' :: ('\n' :: ('-' :: '-' :: '-' :: '\n' :: ('\n' :: rt2))) := by
    rw [show sepLaw = ['\n', '\n', '-', '-', '-', '\n', '\n'] from by decide]
    simp [List.append_assoc]
  rw [hdecomp, splitNL_append t1 _, splitNL_cons_nl]
  have h3 : splitNL ('-' :: '-' :: '-' :: '\n' :: ('\n' :: rt2)) =
      threeHyphens :: ([] :: splitNL rt2) := by
    have hsh : ('-' :: '-' :: '-' :: '\n' :: ('\n' :: rt2) : Str) =
        threeHyphens ++ '\n' :: ('\n' :: rt2) := rfl
    rw [hsh, splitNL_append, splitNL_cons_nl,
      show splitNL threeHyphens = [threeHyphens] from by decide]
    rfl
  rw [h3]

theorem filter_threeHyphens_nil {u : Str} (hu : ('-' : Char) ∉ u) :
    (splitNL u).filter (fun b => decide (b = threeHyphens)) = [] := by
  rw [List.filter_eq_nil_iff]
  intro b hb hbt
  rw [decide_eq_true_eq] at hbt
  subst hbt
  exact hu (mem_splitNL_subset u threeHyphens hb '-' (by decide))

theorem sepLineCount_agg {t1 t2 : Str} (hd1 : ('-' : Char) ∉ t1)
    (hd2 : ('-' : Char) ∉ t2) :
    sepLineCount (t1 ++ sepLaw ++ rstrip t2) = 1 := by
  unfold sepLineCount
  rw [splitNL_agg, List.filter_append, filter_threeHyphens_nil hd1]
  have hd2' : (splitNL (rstrip t2)).filter (fun b => decide (b = threeHyphens)) = [] := by
    rw [List.filter_eq_nil_iff]
    intro b hb hbt
    rw [decide_eq_true_eq] at hbt
    subst hbt
    exact hd2 (mem_rstrip (mem_splitNL_subset _ threeHyphens hb '-' (by decide)))
  rw [List.filter_cons, List.filter_cons, List.filter_cons,
    show decide (([] : Str) = threeHyphens) = false from by decide,
    show decide (threeHyphens = threeHyphens) = true from by decide, hd2']
  simp

/-- Claim C7, as stated, is false on the code: when a document's own
extracted text contains a `---` line surrounded by blank lines (page texts
`"a"`, `"---"`, `"b"`), the trimmed two-document aggregate contains two
separator lines, not exactly one. -/
theorem C7_counterexample :
    mainLawText [PdfDoc.ok [['a'], ['-', '-', '-'], ['b']], PdfDoc.ok [['x']]] =
      PdfResult.ok "a\n\n---\n\nb\n\n---\n\nx".data ∧
    sepLineCount "a\n\n---\n\nb\n\n---\n\nx".data ≠ 1 := by
  decide

/-- Claim C7 (amended): the caller joins the non-empty extraction outputs
with `"\n\n---\n\n"` and trims the aggregate; the aggregate is always free
of leading/trailing whitespace (trimming is idempotent), and for two
non-empty left-trimmed texts containing no hyphen character the aggregate
is the first text, the separator, and the right-trimmed second text, with
exactly one `---` separator line. -/
theorem C7_prop :
    (∀ ts : List Str, pyStrip (aggregateLaw ts) = aggregateLaw ts) ∧
    (∀ docs ts, lawTextsLoop docs = LawTextsResult.ok ts →
      mainLawText docs = PdfResult.ok (aggregateLaw ts)) ∧
    (∀ t1 t2 : Str, t1 ≠ [] → t2 ≠ [] → lstrip t1 = t1 → lstrip t2 = t2 →
      ('-' : Char) ∉ t1 → ('-' : Char) ∉ t2 →
      aggregateLaw [t1, t2] = t1 ++ sepLaw ++ rstrip t2 ∧
      sepLineCount (aggregateLaw [t1, t2]) = 1) := by
  refine ⟨?_, ?_, ?_⟩
  · intro ts
    exact pyStrip_idem _
  · intro docs ts h
    unfold mainLawText
    rw [h]
  · intro t1 t2 h1 h2 hf1 hf2 hd1 hd2
    cases t1 with
    | nil => exact absurd rfl h1
    | cons c1 r1 =>
        cases t2 with
        | nil => exact absurd rfl h2
        | cons c2 r2 =>
            have hsp1 : isSpace c1 = false := head_nonspace_of_lstrip_fix hf1 rfl
            have hsp2 : isSpace c2 = false := head_nonspace_of_lstrip_fix hf2 rfl
            have hr2 : rstrip (c2 :: r2) ≠ [] :=
              rstrip_ne_nil (List.mem_cons_self c2 r2) hsp2
            have hagg : aggregateLaw [c1 :: r1, c2 :: r2] =
                (c1 :: r1) ++ sepLaw ++ rstrip (c2 :: r2) := by
              show pyStrip ((c1 :: r1) ++ sepLaw ++ (c2 :: r2)) = _
              exact pyStrip_sep_append c1 r1 hsp1 hr2
            refine ⟨hagg, ?_⟩
            rw [hagg]
            exact sepLineCount_agg hd1 hd2

/-- Witness for `C7_prop` on the texts `"a"` and `"x"`. -/
theorem C7_witness : sepLineCount (aggregateLaw [['a'], ['x']]) = 1 :=
  (C7_prop.2.2 ['a'] ['x'] (by decide) (by decide) (by decide) (by decide)
    (by decide) (by decide)).2

/-! ## Helper lemmas: the font resolver -/

/-- `resolveLoop` is characterised by the first candidate whose path
exists: it returns that candidate's name and path, registering the name
only when it is not registered yet, and `(none, none)` with an untouched
registry when no candidate path exists. -/
theorem resolveLoop_find (ex : String → Bool) (reg : List String) :
    ∀ cs : List (String × String),
      (∀ n p, cs.find? (fun c => ex c.2) = some (n, p) →
        resolveLoop ex reg cs =
          ⟨some n, some p, if n ∈ reg then reg else n :: reg,
            if n ∈ reg then 0 else 1⟩) ∧
      (cs.find? (fun c => ex c.2) = none → resolveLoop ex reg cs = ⟨none, none, reg, 0⟩) := by
  intro cs
  induction cs with
  | nil => exact ⟨fun n p h => by simp [List.find?] at h, fun _ => rfl⟩
  | cons hd rest ih =>
      obtain ⟨n0, p0⟩ := hd
      cases hex : ex p0 with
      | true =>
          refine ⟨?_, ?_⟩
          · intro n p h
            rw [List.find?_cons_of_pos _ (by simpa using hex)] at h
            simp only [Option.some.injEq, Prod.mk.injEq] at h
            obtain ⟨rfl, rfl⟩ := h
            by_cases hm : n0 ∈ reg <;> simp [resolveLoop, hex, hm]
          · intro h
            rw [List.find?_cons_of_pos _ (by simpa using hex)] at h
            exact Option.noConfusion h
      | false =>
          refine ⟨?_, ?_⟩
          · intro n p h
            rw [List.find?_cons_of_neg _ (by simpa using hex)] at h
            have hrec := ih.1 n p h
            simpa [resolveLoop, hex] using hrec
          · intro h
            rw [List.find?_cons_of_neg _ (by simpa using hex)] at h
            have hrec := ih.2 h
            simpa [resolveLoop, hex] using hrec

theorem resolveLoop_cases (ex : String → Bool) (reg : List String) :
    ∀ cs : List (String × String),
      ((resolveLoop ex reg cs).name = none ∧ (resolveLoop ex reg cs).path = none) ∨
      (∃ n p, (resolveLoop ex reg cs).name = some n ∧
        (resolveLoop ex reg cs).path = some p ∧ (n, p) ∈ cs ∧ ex p = true) := by
  intro cs
  induction cs with
  | nil => exact Or.inl ⟨rfl, rfl⟩
  | cons hd rest ih =>
      obtain ⟨n0, p0⟩ := hd
      cases hex : ex p0 with
      | true =>
          right
          refine ⟨n0, p0, ?_, ?_, List.mem_cons_self _ _, hex⟩
          · by_cases hm : n0 ∈ reg <;> simp [resolveLoop, hex, hm]
          · by_cases hm : n0 ∈ reg <;> simp [resolveLoop, hex, hm]
      | false =>
          have hrAll : resolveLoop ex reg ((n0, p0) :: rest) = resolveLoop ex reg rest := by
            simp [resolveLoop, hex]
          rw [hrAll]
          rcases ih with h | ⟨n, p, h1, h2, h3, h4⟩
          · exact Or.inl h
          · exact Or.inr ⟨n, p, h1, h2, List.mem_cons_of_mem _ h3, h4⟩

/-- Claim C4: `resolve_korean_font` returns the name and the path of the
first candidate whose path exists (first match wins, independently of
later candidates), and `(None, None)` without touching the registry when
no candidate path exists; in particular on a filesystem where the 1st and
the 3rd candidates exist, the 1st is returned. -/
theorem C4_prop (ex : String → Bool) (reg : List String) (bd : String) :
    (∀ n p, (fontCandidates bd).find? (fun c => ex c.2) = some (n, p) →
      (resolve_korean_font ex reg bd).name = some n ∧
      (resolve_korean_font ex reg bd).path = some p) ∧
    ((fontCandidates bd).find? (fun c => ex c.2) = none →
      resolve_korean_font ex reg bd = ⟨none, none, reg, 0⟩) ∧
    ((resolve_korean_font (fsFirstAndThird bd) reg bd).name = some "NanumGothic" ∧
      (resolve_korean_font (fsFirstAndThird bd) reg bd).path =
        some (bd ++ "/fonts/NanumGothic.ttf")) := by
  refine ⟨?_, ?_, ?_⟩
  · intro n p h
    have hr := (resolveLoop_find ex reg (fontCandidates bd)).1 n p h
    unfold resolve_korean_font
    rw [hr]
    exact ⟨rfl, rfl⟩
  · intro h
    exact (resolveLoop_find ex reg (fontCandidates bd)).2 h
  · have hfind : (fontCandidates bd).find? (fun c => fsFirstAndThird bd c.2) =
        some ("NanumGothic", bd ++ "/fonts/NanumGothic.ttf") := by
      unfold fontCandidates
      exact List.find?_cons_of_pos _ (by simp [fsFirstAndThird])
    have hr := (resolveLoop_find (fsFirstAndThird bd) reg (fontCandidates bd)).1 _ _ hfind
    unfold resolve_korean_font
    rw [hr]
    exact ⟨rfl, rfl⟩

/-- Witness for `C4_prop`: a filesystem where only the first bundled
path exists. -/
theorem C4_witness :
    (resolve_korean_font (fsFirstAndThird "B") [] "B").name = some "NanumGothic" :=
  ((C4_prop (fsFirstAndThird "B") [] "B").1 "NanumGothic"
    ("B" ++ "/fonts/NanumGothic.ttf") (by decide)).1

/-- Claim C5: registration is idempotent.  If a call returns a font name,
that name is in the registry afterwards, a repeat call with the unchanged
filesystem returns the same name and path and performs zero registrations,
and a call that finds its name already registered leaves the registry
unchanged with zero registrations (check-before-register). -/
theorem C5_prop (ex : String → Bool) (reg : List String) (bd : String)
    (n : String) (p : Option String) (reg2 : List String) (k : Nat)
    (h : resolve_korean_font ex reg bd = ⟨some n, p, reg2, k⟩) :
    n ∈ reg2 ∧
    resolve_korean_font ex reg2 bd = ⟨some n, p, reg2, 0⟩ ∧
    (n ∈ reg → reg2 = reg ∧ k = 0) := by
  unfold resolve_korean_font at h ⊢
  cases hf : (fontCandidates bd).find? (fun c => ex c.2) with
  | none =>
      have hr := (resolveLoop_find ex reg (fontCandidates bd)).2 hf
      rw [hr] at h
      simp at h
  | some c =>
      obtain ⟨n', p'⟩ := c
      have hr := (resolveLoop_find ex reg (fontCandidates bd)).1 n' p' hf
      rw [hr] at h
      simp only [ResolveOut.mk.injEq, Option.some.injEq] at h
      obtain ⟨rfl, rfl, hreg2, hk⟩ := h
      subst hreg2
      subst hk
      have hn2 : n' ∈ (if n' ∈ reg then reg else n' :: reg) := by
        by_cases hm : n' ∈ reg <;> simp [hm]
      refine ⟨hn2, ?_, ?_⟩
      · have hr2 := (resolveLoop_find ex (if n' ∈ reg then reg else n' :: reg)
          (fontCandidates bd)).1 n' p' hf
        rw [hr2]
        simp [hn2]
      · intro hm
        constructor <;> simp [hm]

/-- Witness for `C5_prop`: re-resolving after a first resolution that
registered NanumGothic performs no further registration. -/
theorem C5_witness :
    resolve_korean_font (fsFirstAndThird "B") ["NanumGothic"] "B" =
      ⟨some "NanumGothic", some ("B" ++ "/fonts/NanumGothic.ttf"), ["NanumGothic"], 0⟩ :=
  (C5_prop (fsFirstAndThird "B") [] "B" "NanumGothic"
    (some ("B" ++ "/fonts/NanumGothic.ttf")) ["NanumGothic"] 1 (by decide)).2.1

/-- Claim C9: every call returns either `(None, None)` or a pair of a name
and a path that are both present, with the name one of the two configured
logical names, the pair one of the configured candidates, and the path one
that existed at the time of the check; no mixed pair occurs. -/
theorem C9_prop (ex : String → Bool) (reg : List String) (bd : String) :
    ((resolve_korean_font ex reg bd).name = none ∧
      (resolve_korean_font ex reg bd).path = none) ∨
    (∃ n p, (resolve_korean_font ex reg bd).name = some n ∧
      (resolve_korean_font ex reg bd).path = some p ∧
      (n = "NanumGothic" ∨ n = "MalgunGothic") ∧
      (n, p) ∈ fontCandidates bd ∧ ex p = true) := by
  rcases resolveLoop_cases ex reg (fontCandidates bd) with h | ⟨n, p, h1, h2, h3, h4⟩
  · exact Or.inl h
  · refine Or.inr ⟨n, p, h1, h2, ?_, h3, h4⟩
    simp only [fontCandidates, List.mem_cons, List.not_mem_nil, or_false,
      Prod.mk.injEq] at h3
    rcases h3 with ⟨rfl, -⟩ | ⟨rfl, -⟩ | ⟨rfl, -⟩ | ⟨rfl, -⟩
    · exact Or.inl rfl
    · exact Or.inl rfl
    · exact Or.inr rfl
    · exact Or.inr rfl

/-! ## Helper lemmas: escaping in the report builder -/

theorem pyReplaceChar_append (c : Char) (rep : Str) (a b : Str) :
    pyReplaceChar c rep (a ++ b) = pyReplaceChar c rep a ++ pyReplaceChar c rep b := by
  induction a with
  | nil => rfl
  | cons d rest ih =>
      show (if d = c then rep else [d]) ++ pyReplaceChar c rep (rest ++ b) =
        ((if d = c then rep else [d]) ++ pyReplaceChar c rep rest) ++ pyReplaceChar c rep b
      rw [ih, List.append_assoc]

theorem sax_escape_cons (c : Char) (l : Str) :
    sax_escape (c :: l) = escCh c ++ sax_escape l := by
  unfold sax_escape
  rw [show pyReplaceChar '&' "&amp;".data (c :: l) =
      (if c = '&' then "&amp;".data else [c]) ++ pyReplaceChar '&' "&amp;".data l from rfl]
  rw [pyReplaceChar_append, pyReplaceChar_append]
  congr 1
  by_cases h1 : c = '&'
  · subst h1; decide
  · by_cases h2 : c = '<'
    · subst h2; decide
    · by_cases h3 : c = '>'
      · subst h3; decide
      · simp [pyReplaceChar, escCh, h1, h2, h3]

theorem countChar_append (q : Char) (a b : Str) :
    countChar q (a ++ b) = countChar q a + countChar q b := by
  induction a with
  | nil => simp [countChar]
  | cons d rest ih =>
      show (if d = q then 1 else 0) + countChar q (rest ++ b) =
        ((if d = q then 1 else 0) + countChar q rest) + countChar q b
      rw [ih]
      omega

theorem escCh_quote_count (c : Char) : countChar '"' (escCh c) = countChar '"' [c] := by
  by_cases h1 : c = '&'
  · subst h1; decide
  · by_cases h2 : c = '<'
    · subst h2; decide
    · by_cases h3 : c = '>'
      · subst h3; decide
      · simp [escCh, h1, h2, h3]

theorem countChar_quote_sax (l : Str) : countChar '"' (sax_escape l) = countChar '"' l := by
  induction l with
  | nil => rfl
  | cons c rest ih =>
      rw [sax_escape_cons, countChar_append, escCh_quote_count, ih]
      simp only [countChar]
      omega

theorem angleFree_escCh (c : Char) : angleFree (escCh c) = true := by
  by_cases h1 : c = '&'
  · subst h1; decide
  · by_cases h2 : c = '<'
    · subst h2; decide
    · by_cases h3 : c = '>'
      · subst h3; decide
      · simp [escCh, angleFree, h1, h2, h3]

theorem angleFree_append (a b : Str) :
    angleFree (a ++ b) = (angleFree a && angleFree b) := by
  simp [angleFree, List.all_append]

theorem angleFree_sax (l : Str) : angleFree (sax_escape l) = true := by
  induction l with
  | nil => rfl
  | cons c rest ih =>
      rw [sax_escape_cons, angleFree_append, angleFree_escCh, ih]
      rfl

theorem ampsOk_cons_ne {c : Char} (h : c ≠ '&') (l : Str) :
    ampsOk (c :: l) = ampsOk l := by
  simp [ampsOk, h]

theorem ampsOk_cons_amp (rest : Str) :
    ampsOk ('&' :: rest) =
      ((startsWith "amp;".data rest || startsWith "lt;".data rest ||
        startsWith "gt;".data rest) && ampsOk rest) := by
  simp [ampsOk]

theorem startsWith_append (pat : Str) : ∀ l : Str, startsWith pat (pat ++ l) = true := by
  induction pat with
  | nil => intro l; rfl
  | cons c cs ih =>
      intro l
      simp only [List.cons_append, startsWith, if_pos rfl]
      exact ih l

theorem ampsOk_amp_tail (l : Str) : ampsOk ("amp;".data ++ l) = ampsOk l := by
  rw [show ("amp;".data : Str) = ['a', 'm', 'p', ';'] from by decide]
  simp only [List.cons_append, List.nil_append]
  rw [ampsOk_cons_ne (by decide), ampsOk_cons_ne (by decide),
    ampsOk_cons_ne (by decide), ampsOk_cons_ne (by decide)]

theorem ampsOk_lt_tail (l : Str) : ampsOk ("lt;".data ++ l) = ampsOk l := by
  rw [show ("lt;".data : Str) = ['l', 't', ';'] from by decide]
  simp only [List.cons_append, List.nil_append]
  rw [ampsOk_cons_ne (by decide), ampsOk_cons_ne (by decide), ampsOk_cons_ne (by decide)]

theorem ampsOk_gt_tail (l : Str) : ampsOk ("gt;".data ++ l) = ampsOk l := by
  rw [show ("gt;".data : Str) = ['g', 't', ';'] from by decide]
  simp only [List.cons_append, List.nil_append]
  rw [ampsOk_cons_ne (by decide), ampsOk_cons_ne (by decide), ampsOk_cons_ne (by decide)]

theorem ampsOk_escCh_append (c : Char) (l : Str) : ampsOk (escCh c ++ l) = ampsOk l := by
  by_cases h1 : c = '&'
  · subst h1
    have key : escCh '&' ++ l = '&' :: ("amp;".data ++ l) := by
      simp [show escCh '&' = '&' :: "amp;".data from by decide]
    rw [key, ampsOk_cons_amp]
    simp only [startsWith_append, Bool.true_or, Bool.or_true, Bool.true_and]
    exact ampsOk_amp_tail l
  · by_cases h2 : c = '<'
    · subst h2
      have key : escCh '<' ++ l = '&' :: ("lt;".data ++ l) := by
        simp [show escCh '<' = '&' :: "lt;".data from by decide]
      rw [key, ampsOk_cons_amp]
      simp only [startsWith_append, Bool.true_or, Bool.or_true, Bool.true_and]
      exact ampsOk_lt_tail l
    · by_cases h3 : c = '>'
      · subst h3
        have key : escCh '>' ++ l = '&' :: ("gt;".data ++ l) := by
          simp [show escCh '>' = '&' :: "gt;".data from by decide]
        rw [key, ampsOk_cons_amp]
        simp only [startsWith_append, Bool.true_or, Bool.or_true, Bool.true_and]
        exact ampsOk_gt_tail l
      · have key : escCh c ++ l = c :: l := by
          simp [show escCh c = [c] from by simp [escCh, h1, h2, h3]]
        rw [key]
        exact ampsOk_cons_ne h1 l

theorem ampsOk_sax (l : Str) : ampsOk (sax_escape l) = true := by
  induction l with
  | nil => rfl
  | cons c rest ih =>
      rw [sax_escape_cons, ampsOk_escCh_append, ih]

theorem markupSafe_sax (l : Str) : markupSafe (sax_escape l) = true := by
  unfold markupSafe
  rw [angleFree_sax, ampsOk_sax]
  rfl

theorem pyJoin_consHead (rep : Str) (c : Char) (S : List Str) (h : S ≠ []) :
    pyJoin rep (consHead c S) = c :: pyJoin rep S := by
  cases S with
  | nil => exact absurd rfl h
  | cons s ss =>
      cases ss with
      | nil => rfl
      | cons y ys => rfl

theorem replaceNL_eq_join (rep : Str) : ∀ l : Str,
    pyReplaceChar '\n' rep l = pyJoin rep (splitNL l) := by
  intro l
  induction l with
  | nil => rfl
  | cons c rest ih =>
      by_cases hc : c = '\n'
      · subst hc
        rw [splitNL_cons_nl,
          show pyReplaceChar '\n' rep ('\n' :: rest) =
            rep ++ pyReplaceChar '\n' rep rest from by simp [pyReplaceChar], ih]
        cases hS : splitNL rest with
        | nil => exact absurd hS (splitNL_ne_nil rest)
        | cons s ss => rfl
      · rw [splitNL_cons_ne hc,
          show pyReplaceChar '\n' rep (c :: rest) =
            [c] ++ pyReplaceChar '\n' rep rest from by simp [pyReplaceChar, hc],
          ih, pyJoin_consHead rep c _ (splitNL_ne_nil rest)]
        rfl

theorem splitNL_prepend : ∀ a : Str, (∀ x ∈ a, x ≠ '\n') →
    ∀ (X s : Str) (ss : List Str), splitNL X = s :: ss →
      splitNL (a ++ X) = (a ++ s) :: ss := by
  intro a
  induction a with
  | nil => intro _ X s ss h; simpa using h
  | cons d a' ih =>
      intro ha X s ss h
      have hd : d ≠ '\n' := ha d (List.mem_cons_self _ _)
      rw [List.cons_append, splitNL_cons_ne hd,
        ih (fun x hx => ha x (List.mem_cons_of_mem _ hx)) X s ss h]
      rfl

theorem escCh_no_nl {c : Char} (hc : c ≠ '\n') : ∀ x ∈ escCh c, x ≠ '\n' := by
  by_cases h1 : c = '&'
  · subst h1; decide
  · by_cases h2 : c = '<'
    · subst h2; decide
    · by_cases h3 : c = '>'
      · subst h3; decide
      · intro x hx
        rw [show escCh c = [c] from by simp [escCh, h1, h2, h3]] at hx
        rw [List.mem_singleton.mp hx]
        exact hc

theorem splitNL_sax (l : Str) : splitNL (sax_escape l) = (splitNL l).map sax_escape := by
  induction l with
  | nil => rfl
  | cons c rest ih =>
      by_cases hc : c = '\n'
      · subst hc
        rw [sax_escape_cons, show escCh '\n' = ['\n'] from by decide]
        simp only [List.cons_append, List.nil_append]
        rw [splitNL_cons_nl, splitNL_cons_nl, ih]
        rfl
      · rw [sax_escape_cons, splitNL_cons_ne hc]
        cases hS : splitNL rest with
        | nil => exact absurd hS (splitNL_ne_nil rest)
        | cons s ss =>
            have hsax : splitNL (sax_escape rest) = sax_escape s :: (ss.map sax_escape) := by
              rw [ih, hS]
              rfl
            rw [splitNL_prepend (escCh c) (escCh_no_nl hc) _ _ _ hsax,
              show (consHead c (s :: ss)) = (c :: s) :: ss from rfl]
            simp only [List.map_cons]
            rw [sax_escape_cons]

theorem countChar_quote_replaceNL (l : Str) :
    countChar '"' (pyReplaceChar '\n' "<br/>".data l) = countChar '"' l := by
  induction l with
  | nil => rfl
  | cons c rest ih =>
      show countChar '"' ((if c = '\n' then "<br/>".data else [c]) ++ _) = _
      rw [countChar_append, ih]
      by_cases hc : c = '\n'
      · subst hc
        rw [if_pos rfl, show countChar '"' "<br/>".data = 0 from by decide]
        simp [countChar]
      · rw [if_neg hc]
        simp [countChar]

/-- Claim C2: in `build_pdf_bytes` the timestamp, filename and analysis
body are passed through `xml.sax.saxutils.escape` before being placed into
the `Paragraph` markup: the escaped fields contain no angle bracket and
every ampersand only as part of an emitted entity, so `&`, `<`, `>` cannot
act as markup; quote characters are preserved verbatim and, since the body
is exactly the escaped lines of the analysis joined by explicit `<br/>`
line-break tags (the conversion of every literal newline), every quote
lies in text content outside any tag and is not interpretable as markup. -/
theorem C2_prop (a f ts : Str) (fn : Option String) :
    (build_pdf_bytes a f ts fn).metaTime = "분석 일시: ".data ++ sax_escape ts ∧
    (build_pdf_bytes a f ts fn).metaFile = "도면 파일명: ".data ++ sax_escape f ∧
    (build_pdf_bytes a f ts fn).body = pyJoin "<br/>".data ((splitNL a).map sax_escape) ∧
    markupSafe (sax_escape ts) = true ∧
    markupSafe (sax_escape f) = true ∧
    ((splitNL a).map sax_escape).all markupSafe = true ∧
    countChar '"' (sax_escape ts) = countChar '"' ts ∧
    countChar '"' (sax_escape f) = countChar '"' f ∧
    countChar '"' (build_pdf_bytes a f ts fn).body = countChar '"' a := by
  refine ⟨rfl, rfl, ?_, markupSafe_sax ts, markupSafe_sax f, ?_,
    countChar_quote_sax ts, countChar_quote_sax f, ?_⟩
  · show pyReplaceChar '\n' "<br/>".data (sax_escape a) = _
    rw [replaceNL_eq_join, splitNL_sax]
  · rw [List.all_eq_true]
    intro x hx
    rcases List.mem_map.mp hx with ⟨s, -, rfl⟩
    exact markupSafe_sax s
  · show countChar '"' (pyReplaceChar '\n' "<br/>".data (sax_escape a)) = _
    rw [countChar_quote_replaceNL, countChar_quote_sax]

/-- Claim C10: `font_name or "Helvetica"` treats the empty string like
`None`: with an empty-string font name (and with no font name) the
document's base font is the built-in default Helvetica. -/
theorem C10_prop (a f ts : Str) :
    (build_pdf_bytes a f ts (some "")).baseFont = "Helvetica" ∧
    (build_pdf_bytes a f ts none).baseFont = "Helvetica" :=
  ⟨rfl, rfl⟩

end ArchAI
